import Mathlib

/-!
Verification of the masakyuk-api ingredient-to-affiliate-product matcher and
the affiliate CSV import path.

The deployed matcher lives in `src/db/repositories/affiliate-repository.ts`
(`matchIngredient`): it normalizes the ingredient name with
`name.toLowerCase().trim()` and then runs three SQL-backed strategies in
order — exact canonical-name match (ILIKE against the already-lowercased
pattern), alias match (`normalized = ANY(lower(aliases))`), and a pg_trgm
fuzzy match (`word_similarity(normalized, canonical_name) > 0.4`, ordered by
descending similarity) — returning `undefined` when all three fail.

The embedding models the catalog as an explicit list of rows in table order
and `SELECT ... LIMIT 1` / `rows[0]` as the first row in catalog order.
ILIKE is modelled with full pattern semantics (`likeMatch`): `%` and `_`
wildcards and backslash escapes, case-folded on both sides, as
PostgreSQL interprets the user-supplied normalized ingredient in the exact
stage and the canonical names spliced into the contains-stage pattern.
PostgreSQL rejects a pattern ending in a dangling escape character (the
query raises and the request fails with 500); `likeMatch` returns false
there, and every theorem whose conclusion depends on the exact stage
completing without rows carries a `likePatternWf` hypothesis excluding
those inputs. `word_similarity` is a Postgres extension function external
to the repository, so it is a parameter of the embedding (a score in ℚ).

The HTTP handler is `GET /affiliates/match` in `src/routes/affiliates.ts`.
A historical design document (`drizzle/0003_uneven_spencer_smythe.sql`)
contains the {exact, alias, contains, search} pipeline variant; its
contains stage is embedded as `containsMatch`.

The CSV import path is `importAffiliatesCsv` in `src/db/import-service.ts`
with `validateAffiliateRows` from `src/db/csv-helpers.ts`. CSV cells parsed
by Papaparse with `header: true` can be absent at runtime (`undefined`),
which the embedding models with `Option String`; reading a field of an
absent cell without optional chaining is a TypeError, modelled explicitly.
-/

namespace Masakyuk

/-- Match type labels appearing in the TS union types across the repository:
the deployed `AffiliateMatch.matchType` uses `exact | alias | fuzzy`; the
design-document variant additionally uses `contains` and `search`. -/
inductive MatchType
  | exact
  | alias
  | contains
  | search
  | fuzzy
deriving DecidableEq, Repr

/-- `AffiliateRow` from `affiliate-repository.ts` (timestamps omitted:
they never take part in matching). `aliases` is a nullable text array. -/
structure AffiliateRow where
  id : Nat
  canonicalName : String
  link : String
  aliases : Option (List String)
  category : Option String
  partner : String
  searchUrlTemplate : Option String
deriving DecidableEq, Repr

/-- `AffiliateMatch` from `affiliate-repository.ts`. -/
structure AffiliateMatch where
  product : AffiliateRow
  matchType : MatchType
deriving DecidableEq, Repr

/-- JS `String.prototype.toLowerCase`, written over the underlying
character list so that concrete instances evaluate inside the kernel. -/
def lowerStr (s : String) : String :=
  String.mk (s.data.map Char.toLower)

/-- JS `String.prototype.trim`: strip leading and trailing whitespace. -/
def trimStr (s : String) : String :=
  String.mk (((s.data.dropWhile Char.isWhitespace).reverse.dropWhile
    Char.isWhitespace).reverse)

/-- The normalization `name.toLowerCase().trim()` at the top of
`matchIngredient`. -/
def normalize (name : String) : String :=
  trimStr (lowerStr name)

/-- All suffixes of a character list, longest first. -/
def suffixes : List Char → List (List Char)
  | [] => [[]]
  | c :: t => (c :: t) :: suffixes t

/-- PostgreSQL `LIKE` pattern matching: the first argument is the pattern,
the second the string. `%` matches any sequence of characters, `_` any
single character, and `\` escapes the following pattern character; any
other pattern character matches itself. PostgreSQL raises an error for a
pattern ending in a dangling escape character; `likeMatch` returns
`false` there (see `likePatternWf`). -/
def likeMatch : List Char → List Char → Bool
  | [], s => s.isEmpty
  | c :: p, s =>
    if c = '%' then
      (suffixes s).any (likeMatch p)
    else if c = '_' then
      match s with
      | [] => false
      | _ :: s2 => likeMatch p s2
    else if c = '\\' then
      match p with
      | [] => false
      | d :: p2 =>
        match s with
        | [] => false
        | c2 :: s2 => c2 == d && likeMatch p2 s2
    else
      match s with
      | [] => false
      | c2 :: s2 => c2 == c && likeMatch p s2

/-- Whether a LIKE pattern is accepted by PostgreSQL: it must not end in a
dangling escape character (otherwise the query raises
`LIKE pattern must not end with escape character` and the whole request
fails). -/
def likePatternWf : List Char → Bool
  | [] => true
  | c :: p =>
    if c = '\\' then
      match p with
      | [] => false
      | _ :: p2 => likePatternWf p2
    else
      likePatternWf p

/-- `ILIKE`: LIKE matching with both pattern and string case-folded. -/
def ilikeMatch (pat str : String) : Bool :=
  likeMatch (lowerStr pat).data (lowerStr str).data

/-- Step 1 predicate: `ilike(canonicalName, normalized)` — the normalized
user input is the ILIKE pattern and the canonical name the string, so `%`,
`_` and `\` in the ingredient keep their LIKE meaning. -/
def exactPred (normalized : String) (r : AffiliateRow) : Bool :=
  ilikeMatch normalized r.canonicalName

/-- Step 2 predicate: `normalized = ANY(lower(aliases))`; a NULL alias
array matches nothing. -/
def aliasPred (normalized : String) (r : AffiliateRow) : Bool :=
  ((r.aliases.getD []).map lowerStr).contains normalized

/-- The similarity threshold `0.4` of the fuzzy strategy, as the exact
rational 2/5 (see `fuzzyThreshold_eq`). -/
def fuzzyThreshold : ℚ :=
  mkRat 2 5

/-- Step 3 of `matchIngredient`:
`WHERE word_similarity(normalized, canonical_name) > 0.4
 ORDER BY word_similarity(...) DESC LIMIT 1`,
with the descending sort taken as stable, so that among rows of maximal
similarity the first in catalog order is returned. -/
def fuzzyBest (wsim : String → String → ℚ) (normalized : String) :
    List AffiliateRow → Option AffiliateRow
  | [] => none
  | r :: rest =>
    match fuzzyBest wsim normalized rest with
    | none => if wsim normalized r.canonicalName > fuzzyThreshold then some r else none
    | some b =>
      if wsim normalized r.canonicalName > fuzzyThreshold then
        if wsim normalized b.canonicalName > wsim normalized r.canonicalName then
          some b
        else
          some r
      else
        some b

/-- `matchIngredient` from `affiliate-repository.ts`: exact, then alias,
then fuzzy; `undefined` when every strategy fails. `wsim` stands for the
external pg_trgm `word_similarity`; `catalog` is the `affiliate_products`
table in row order. -/
def matchIngredient (wsim : String → String → ℚ) (name : String)
    (catalog : List AffiliateRow) : Option AffiliateMatch :=
  let normalized := normalize name
  match catalog.find? (exactPred normalized) with
  | some r => some ⟨r, MatchType.exact⟩
  | none =>
    match catalog.find? (aliasPred normalized) with
    | some r => some ⟨r, MatchType.alias⟩
    | none =>
      match fuzzyBest wsim normalized catalog with
      | some r => some ⟨r, MatchType.fuzzy⟩
      | none => none

/-- Outcome of `GET /affiliates/match` in `src/routes/affiliates.ts`. -/
inductive RouteResult
  | badRequest
  | notFound
  | ok (m : AffiliateMatch)
deriving DecidableEq, Repr

/-- The `GET /affiliates/match` handler: `if (!ingredient ||
ingredient.length > 200)` answers 400 (a missing parameter or the empty
string is falsy); a matcher miss answers 404; a hit is returned as-is. -/
def matchRoute (wsim : String → String → ℚ) (ingredient : Option String)
    (catalog : List AffiliateRow) : RouteResult :=
  match ingredient with
  | none => RouteResult.badRequest
  | some s =>
    if s.length = 0 ∨ s.length > 200 then
      RouteResult.badRequest
    else
      match matchIngredient wsim s catalog with
      | none => RouteResult.notFound
      | some m => RouteResult.ok m

/-- Whether `n` occurs as a contiguous run inside `h`. -/
def charsInfix (n : List Char) : List Char → Bool
  | [] => n.isEmpty
  | c :: t => n.isPrefixOf (c :: t) || charsInfix n t

/-- Boolean substring test used to model `normalized ILIKE '%' || name || '%'`
and `normalized.includes(name)`. -/
def substrOf (needle hay : String) : Bool :=
  charsInfix needle.data hay.data

/-- The filter stage of the contains strategy in the design-document
variants: products whose lowercased canonical name occurs inside the
normalized ingredient name. -/
def containsCandidates (normalized : String) (catalog : List AffiliateRow) :
    List AffiliateRow :=
  catalog.filter (fun a => substrOf (lowerStr a.canonicalName) normalized)

/-- First row of maximal canonical-name length: the head of a stable sort
by `length(canonical_name) DESC` (`ORDER BY ... LIMIT 1` in the SQL
variant, `.sort((a, b) => b.canonicalName.length - a.canonicalName.length)`
then index 0 in the in-memory variant). -/
def pickLongest : List AffiliateRow → Option AffiliateRow
  | [] => none
  | a :: rest =>
    match pickLongest rest with
    | none => some a
    | some b =>
      if b.canonicalName.length > a.canonicalName.length then some b else some a

/-- The contains stage of the design-document pipeline: both the SQL route
variant and the in-memory enrichment variant filter to canonical names
contained in the normalized ingredient and keep the longest one. -/
def containsMatch (normalized : String) (catalog : List AffiliateRow) :
    Option AffiliateRow :=
  pickLongest (containsCandidates normalized catalog)

/-- The filter of the SQL route variant's contains stage:
`normalized ILIKE '%' || canonical_name || '%'` — the canonical name is
spliced into the pattern, so LIKE metacharacters inside canonical names
keep their pattern meaning there. -/
def containsPredSql (normalized : String) (a : AffiliateRow) : Bool :=
  ilikeMatch ("%" ++ a.canonicalName ++ "%") normalized

/-- The contains stage of the SQL route variant:
`WHERE normalized ILIKE '%' || canonical_name || '%'
 ORDER BY length(canonical_name) DESC LIMIT 1`,
with the descending sort taken as stable as elsewhere. -/
def containsMatchSql (normalized : String) (catalog : List AffiliateRow) :
    Option AffiliateRow :=
  pickLongest (catalog.filter (containsPredSql normalized))

/-- `AffiliateCsvRow` as produced at runtime by Papaparse with
`header: true`: a column absent from the CSV yields `undefined`
(`none` here) for that field on every row. -/
structure AffiliateCsvRow where
  canonical_name : Option String
  link : Option String
  category : Option String
  aliases : Option String
  partner : Option String
  search_url_template : Option String
deriving DecidableEq, Repr

/-- `ValidationError` from `csv-helpers.ts`. -/
structure ValidationError where
  row : Nat
  field : String
  message : String
deriving DecidableEq, Repr

/-- The loop body of `validateAffiliateRows`: `i` is the 0-based row index
(reported as `i + 2` to account for the header line), `names` the set of
canonical names seen so far. Checks, in source order: missing
`canonical_name` (`!row.canonical_name?.trim()`), duplicate trimmed
`canonical_name`, then missing `link`. -/
def validateAffiliateRowsGo : Nat → List String → List AffiliateCsvRow →
    List ValidationError
  | _, _, [] => []
  | i, names, row :: rest =>
    let rowNum := i + 2
    let nameVal := trimStr (row.canonical_name.getD "")
    let nameErrs :=
      if nameVal = "" then
        [ValidationError.mk rowNum "canonical_name" "canonical_name is required"]
      else if names.contains nameVal then
        [ValidationError.mk rowNum "canonical_name"
          ("duplicate canonical_name: \x22" ++ nameVal ++ "\x22")]
      else
        []
    let names2 :=
      if nameVal = "" ∨ names.contains nameVal then names else nameVal :: names
    let linkErrs :=
      if trimStr (row.link.getD "") = "" then
        [ValidationError.mk rowNum "link" "link is required"]
      else
        []
    nameErrs ++ linkErrs ++ validateAffiliateRowsGo (i + 1) names2 rest

/-- `validateAffiliateRows` from `csv-helpers.ts`. -/
def validateAffiliateRows (rows : List AffiliateCsvRow) : List ValidationError :=
  validateAffiliateRowsGo 0 [] rows

/-- The row shape inserted into `affiliate_products` by
`importAffiliatesCsv`. -/
structure AffiliateInsert where
  canonicalName : String
  link : String
  category : Option String
  aliases : Option (List String)
  partner : String
  searchUrlTemplate : Option String
deriving DecidableEq, Repr

/-- The per-row mapping inside `importAffiliatesCsv`'s insert. The fields
read without optional chaining (`a.canonical_name.trim()`, `a.link.trim()`,
`a.partner.trim()`) throw a TypeError when the cell is absent, modelled as
`none` here; `a.category?.trim() || null` and friends collapse
absent/blank to NULL; `a.aliases?.trim() ? a.aliases.split('|').map(trim)
: null` splits the raw cell on pipes. -/
def toInsert (a : AffiliateCsvRow) : Option AffiliateInsert :=
  match a.canonical_name, a.link, a.partner with
  | some cn, some l, some p =>
    some
      { canonicalName := trimStr cn
        link := trimStr l
        category := a.category.bind fun c => if trimStr c = "" then none else some (trimStr c)
        aliases := a.aliases.bind fun al =>
          if trimStr al = "" then none else some ((al.splitOn "|").map trimStr)
        partner := trimStr p
        searchUrlTemplate := a.search_url_template.bind fun t =>
          if trimStr t = "" then none else some (trimStr t) }
  | _, _, _ => none

/-- How a call to `importAffiliatesCsv` ends: a thrown `CsvValidationError`,
an uncaught runtime TypeError (surfaced by the route as a generic 500), or
a normal return `{ imported }`. -/
inductive ImportOutcome
  | validationFailure (errors : List ValidationError)
  | runtimeTypeError
  | success (imported : Nat)
deriving DecidableEq, Repr

/-- `importAffiliatesCsv` from `import-service.ts`, acting on the parsed
rows and the current contents of the `affiliate_products` table; returns
the table contents after the call together with the outcome. Validation
errors abort before the transaction; an empty row list returns
`imported: 0`; otherwise the transaction truncates the table and inserts
the mapped rows, and a TypeError thrown while mapping rolls the
transaction back, leaving the table unchanged. -/
def importAffiliatesCsv (rows : List AffiliateCsvRow)
    (table : List AffiliateInsert) : List AffiliateInsert × ImportOutcome :=
  let errors := validateAffiliateRows rows
  if errors ≠ [] then
    (table, ImportOutcome.validationFailure errors)
  else if rows = [] then
    (table, ImportOutcome.success 0)
  else
    match rows.mapM toInsert with
    | none => (table, ImportOutcome.runtimeTypeError)
    | some inserts => (inserts, ImportOutcome.success rows.length)

/-! ### Sample data for concrete instances

The product below is the first affiliate seed row
(`src/db/seed.ts`); the similarity functions stand in for pg_trgm
`word_similarity` on the inputs the instances use. -/

/-- A similarity function that relates nothing (every score 0). -/
def wsimZero : String → String → ℚ :=
  fun _ _ => 0

/-- A similarity function scoring the typo `mnyak` against
`minyak goreng` at 1/2, everything else at 0. -/
def wsimTypo : String → String → ℚ :=
  fun a b => if a = "mnyak" ∧ b = "minyak goreng" then mkRat 1 2 else 0

/-- The `minyak goreng` seed product. -/
def prodMinyakGoreng : AffiliateRow :=
  { id := 1
    canonicalName := "minyak goreng"
    link := "https://tokopedia.link/minyak-goreng"
    aliases := some ["cooking oil", "vegetable oil"]
    category := some "oil"
    partner := "tokopedia"
    searchUrlTemplate := none }

/-! ### Selection lemmas for the three strategies -/

/-- `find?` returns the first element satisfying the predicate. -/
theorem find?_first {α : Type} (p : α → Bool) (l1 l2 : List α) (a : α)
    (h1 : ∀ x ∈ l1, ¬ p x) (ha : p a) :
    (l1 ++ a :: l2).find? p = some a := by
  induction l1 with
  | nil => simp [List.find?, ha]
  | cons x t ih =>
    have hx : ¬ p x := h1 x (by simp)
    simp only [List.cons_append, List.find?]
    rw [Bool.eq_false_iff.mpr hx]
    exact ih fun y hy => h1 y (by simp [hy])

/-- When the predicate singles out `a` in `l`, `find?` returns `a`. -/
theorem find?_of_unique {α : Type} (p : α → Bool) (l : List α) (a : α)
    (hmem : a ∈ l) (ha : p a) (huniq : ∀ x ∈ l, p x → x = a) :
    l.find? p = some a := by
  cases hfind : l.find? p with
  | none =>
    exact absurd ha (List.find?_eq_none.mp hfind a hmem)
  | some b =>
    have hb : p b := List.find?_some hfind
    have hbl : b ∈ l := List.mem_of_find?_eq_some hfind
    rw [huniq b hbl hb]

/-- `fuzzyBest` misses exactly when no row clears the threshold. -/
theorem fuzzyBest_eq_none_iff (wsim : String → String → ℚ) (n : String)
    (l : List AffiliateRow) :
    fuzzyBest wsim n l = none ↔
      ∀ r ∈ l, ¬ wsim n r.canonicalName > fuzzyThreshold := by
  induction l with
  | nil => simp [fuzzyBest]
  | cons r rest ih =>
    cases hfb : fuzzyBest wsim n rest with
    | none =>
      by_cases hr : wsim n r.canonicalName > fuzzyThreshold <;>
        simp_all [fuzzyBest, hfb]
    | some b =>
      have hb : ¬ (∀ x ∈ rest, ¬ wsim n x.canonicalName > fuzzyThreshold) := by
        intro hall
        rw [ih.mpr hall] at hfb
        exact Option.noConfusion hfb
      constructor
      · intro hnone
        exfalso
        by_cases hr : wsim n r.canonicalName > fuzzyThreshold
        · simp only [fuzzyBest, hfb, if_pos hr] at hnone
          split at hnone <;> exact Option.noConfusion hnone
        · simp only [fuzzyBest, hfb, if_neg hr] at hnone
          exact Option.noConfusion hnone
      · intro hall
        exact absurd (fun x hx => hall x (by simp [hx])) hb

/-- Any row `fuzzyBest` returns belongs to the list, clears the
threshold, and has maximal similarity among rows that clear it. -/
theorem fuzzyBest_eq_some (wsim : String → String → ℚ) (n : String)
    (l : List AffiliateRow) (r : AffiliateRow)
    (h : fuzzyBest wsim n l = some r) :
    r ∈ l ∧ wsim n r.canonicalName > fuzzyThreshold ∧
      ∀ q ∈ l, wsim n q.canonicalName > fuzzyThreshold →
        wsim n q.canonicalName ≤ wsim n r.canonicalName := by
  induction l generalizing r with
  | nil => simp [fuzzyBest] at h
  | cons a rest ih =>
    cases hfb : fuzzyBest wsim n rest with
    | none =>
      have hnone := (fuzzyBest_eq_none_iff wsim n rest).mp hfb
      by_cases ha : wsim n a.canonicalName > fuzzyThreshold
      · simp only [fuzzyBest, hfb, if_pos ha] at h
        cases h
        refine ⟨by simp, ha, ?_⟩
        intro q hq hqt
        rcases List.mem_cons.mp hq with hq | hq
        · subst hq; exact le_refl _
        · exact absurd hqt (hnone q hq)
      · simp [fuzzyBest, hfb, if_neg ha] at h
    | some b =>
      obtain ⟨hbmem, hbt, hbmax⟩ := ih b hfb
      by_cases ha : wsim n a.canonicalName > fuzzyThreshold
      · by_cases hcmp : wsim n b.canonicalName > wsim n a.canonicalName
        · simp only [fuzzyBest, hfb, if_pos ha, if_pos hcmp] at h
          cases h
          refine ⟨by simp [hbmem], hbt, ?_⟩
          intro q hq hqt
          rcases List.mem_cons.mp hq with hq | hq
          · subst hq; exact le_of_lt hcmp
          · exact hbmax q hq hqt
        · simp only [fuzzyBest, hfb, if_pos ha, if_neg hcmp] at h
          cases h
          refine ⟨by simp, ha, ?_⟩
          intro q hq hqt
          rcases List.mem_cons.mp hq with hq | hq
          · subst hq; exact le_refl _
          · exact le_trans (hbmax q hq hqt) (not_lt.mp hcmp)
      · simp only [fuzzyBest, hfb, if_neg ha] at h
        cases h
        refine ⟨by simp [hbmem], hbt, ?_⟩
        intro q hq hqt
        rcases List.mem_cons.mp hq with hq | hq
        · subst hq; exact absurd hqt ha
        · exact hbmax q hq hqt

/-- The row `fuzzyBest` returns is the first among those of maximal
similarity: every earlier qualifying row scores strictly less. -/
theorem fuzzyBest_first_of_max (wsim : String → String → ℚ) (n : String)
    (l : List AffiliateRow) (r : AffiliateRow)
    (h : fuzzyBest wsim n l = some r) :
    ∃ c1 c2, l = c1 ++ r :: c2 ∧
      ∀ q ∈ c1, wsim n q.canonicalName > fuzzyThreshold →
        wsim n q.canonicalName < wsim n r.canonicalName := by
  induction l generalizing r with
  | nil => simp [fuzzyBest] at h
  | cons a rest ih =>
    cases hfb : fuzzyBest wsim n rest with
    | none =>
      by_cases ha : wsim n a.canonicalName > fuzzyThreshold
      · simp only [fuzzyBest, hfb, if_pos ha] at h
        cases h
        exact ⟨[], rest, rfl, by simp⟩
      · simp [fuzzyBest, hfb, if_neg ha] at h
    | some b =>
      by_cases ha : wsim n a.canonicalName > fuzzyThreshold
      · by_cases hcmp : wsim n b.canonicalName > wsim n a.canonicalName
        · simp only [fuzzyBest, hfb, if_pos ha, if_pos hcmp] at h
          cases h
          obtain ⟨c1, c2, hsplit, hlt⟩ := ih r hfb
          refine ⟨a :: c1, c2, by simp [hsplit], ?_⟩
          intro q hq hqt
          rcases List.mem_cons.mp hq with hq | hq
          · subst hq; exact hcmp
          · exact hlt q hq hqt
        · simp only [fuzzyBest, hfb, if_pos ha, if_neg hcmp] at h
          cases h
          exact ⟨[], rest, rfl, by simp⟩
      · simp only [fuzzyBest, hfb, if_neg ha] at h
        cases h
        obtain ⟨c1, c2, hsplit, hlt⟩ := ih r hfb
        refine ⟨a :: c1, c2, by simp [hsplit], ?_⟩
        intro q hq hqt
        rcases List.mem_cons.mp hq with hq | hq
        · subst hq; exact absurd hqt ha
        · exact hlt q hq hqt

/-- `pickLongest` answers on every nonempty list. -/
theorem pickLongest_cons_ne_none (a : AffiliateRow) (rest : List AffiliateRow) :
    pickLongest (a :: rest) ≠ none := by
  simp only [pickLongest]
  cases h : pickLongest rest with
  | none => simp
  | some b =>
    by_cases hc : b.canonicalName.length > a.canonicalName.length
    · simp [hc]
    · simp [hc]

/-- `pickLongest` misses only on the empty list. -/
theorem pickLongest_eq_none (l : List AffiliateRow) (h : pickLongest l = none) :
    l = [] := by
  cases l with
  | nil => rfl
  | cons a rest => exact absurd h (pickLongest_cons_ne_none a rest)

/-- The row `pickLongest` returns has maximal canonical-name length. -/
theorem pickLongest_eq_some (l : List AffiliateRow) (r : AffiliateRow)
    (h : pickLongest l = some r) :
    r ∈ l ∧ ∀ q ∈ l, q.canonicalName.length ≤ r.canonicalName.length := by
  induction l generalizing r with
  | nil => simp [pickLongest] at h
  | cons a rest ih =>
    cases hp : pickLongest rest with
    | none =>
      have : rest = [] := pickLongest_eq_none rest hp
      subst this
      simp only [pickLongest] at h
      cases h
      exact ⟨by simp, by simp⟩
    | some b =>
      obtain ⟨hbmem, hbmax⟩ := ih b hp
      by_cases hcmp : b.canonicalName.length > a.canonicalName.length
      · simp only [pickLongest, hp, if_pos hcmp] at h
        cases h
        refine ⟨by simp [hbmem], ?_⟩
        intro q hq
        rcases List.mem_cons.mp hq with hq | hq
        · subst hq; exact le_of_lt hcmp
        · exact hbmax q hq
      · simp only [pickLongest, hp, if_neg hcmp] at h
        cases h
        refine ⟨by simp, ?_⟩
        intro q hq
        rcases List.mem_cons.mp hq with hq | hq
        · subst hq; exact le_refl _
        · exact le_trans (hbmax q hq) (not_lt.mp hcmp)

/-- The row `pickLongest` returns is the first of maximal length: rows
before it are strictly shorter. -/
theorem pickLongest_first_of_max (l : List AffiliateRow) (r : AffiliateRow)
    (h : pickLongest l = some r) :
    ∃ c1 c2, l = c1 ++ r :: c2 ∧
      ∀ q ∈ c1, q.canonicalName.length < r.canonicalName.length := by
  induction l generalizing r with
  | nil => simp [pickLongest] at h
  | cons a rest ih =>
    cases hp : pickLongest rest with
    | none =>
      simp only [pickLongest, hp] at h
      cases h
      exact ⟨[], rest, rfl, by simp⟩
    | some b =>
      by_cases hcmp : b.canonicalName.length > a.canonicalName.length
      · simp only [pickLongest, hp, if_pos hcmp] at h
        cases h
        obtain ⟨c1, c2, hsplit, hlt⟩ := ih r hp
        refine ⟨a :: c1, c2, by simp [hsplit], ?_⟩
        intro q hq
        rcases List.mem_cons.mp hq with hq | hq
        · subst hq; exact hcmp
        · exact hlt q hq
      · simp only [pickLongest, hp, if_neg hcmp] at h
        cases h
        exact ⟨[], rest, rfl, by simp⟩

/-- A decomposition of a filtered list lifts to the original list, the
dropped front elements all failing the predicate test or preceding `r`. -/
theorem filter_split {α : Type} (p : α → Bool) (l : List α)
    (l1f l2f : List α) (r : α) (h : l.filter p = l1f ++ r :: l2f) :
    ∃ l1 l2, l = l1 ++ r :: l2 ∧ l1.filter p = l1f := by
  induction l generalizing l1f with
  | nil => simp at h
  | cons a t ih =>
    by_cases pa : p a
    · rw [List.filter_cons_of_pos pa] at h
      cases l1f with
      | nil =>
        simp only [List.nil_append] at h
        have har : a = r := List.head_eq_of_cons_eq h
        exact ⟨[], t, by simp [har], by simp⟩
      | cons x l1t =>
        have hax : a = x := List.head_eq_of_cons_eq h
        have ht : t.filter p = l1t ++ r :: l2f := List.tail_eq_of_cons_eq h
        obtain ⟨l1, l2, hsplit, hfl⟩ := ih l1t ht
        exact ⟨a :: l1, l2, by simp [hsplit], by
          rw [List.filter_cons_of_pos pa, hfl, hax]⟩
    · rw [List.filter_cons_of_neg pa] at h
      obtain ⟨l1, l2, hsplit, hfl⟩ := ih l1f h
      exact ⟨a :: l1, l2, by simp [hsplit], by
        rw [List.filter_cons_of_neg pa, hfl]⟩

/-- `Char.ofNat` on a valid scalar value round-trips through `toNat`. -/
theorem toNat_ofNat_valid (n : Nat) (h : n.isValidChar) :
    (Char.ofNat n).toNat = n := by
  rw [Char.ofNat, dif_pos h]
  rfl

/-- Case-folding a character twice equals folding it once. -/
theorem toLower_idem (c : Char) :
    Char.toLower (Char.toLower c) = Char.toLower c := by
  simp only [Char.toLower]
  by_cases h : c.toNat ≥ 65 ∧ c.toNat ≤ 90
  · rw [if_pos h]
    have hv : (c.toNat + 32).isValidChar := Or.inl (by omega)
    rw [toNat_ofNat_valid _ hv, if_neg (by omega)]
  · rw [if_neg h, if_neg h]

/-- Lowercasing a string twice equals lowercasing it once, so ILIKE's
folding of the already-lowercased normalized input is the identity. -/
theorem lowerStr_idem (s : String) : lowerStr (lowerStr s) = lowerStr s := by
  simp [lowerStr, List.map_map, Function.comp_def, toLower_idem]

/-- A LIKE pattern free of `%`, `_` and the escape character matches
exactly the strings equal to it. -/
theorem likeMatch_no_meta :
    ∀ p : List Char, (∀ c ∈ p, c ≠ '%' ∧ c ≠ '_' ∧ c ≠ '\\') →
      ∀ s, likeMatch p s = true ↔ s = p := by
  intro p
  induction p with
  | nil =>
    intro _ s
    cases s <;> simp [likeMatch]
  | cons c p ih =>
    intro hp s
    obtain ⟨h1, h2, h3⟩ := hp c (by simp)
    have hp2 := fun x hx => hp x (List.mem_cons_of_mem c hx)
    cases s with
    | nil =>
      have e : likeMatch (c :: p) [] = false := by
        conv_lhs => unfold likeMatch
        rw [if_neg h1, if_neg h2, if_neg h3]
      simp [e]
    | cons c2 s2 =>
      have e : likeMatch (c :: p) (c2 :: s2) = (c2 == c && likeMatch p s2) := by
        conv_lhs => unfold likeMatch
        rw [if_neg h1, if_neg h2, if_neg h3]
      rw [e]
      simp [ih hp2 s2]

/-- Shared spec of both contains variants: the first row of maximal
canonical-name length among those passing the candidate test. -/
theorem pickFromFilter_spec (pred : AffiliateRow → Bool)
    (catalog : List AffiliateRow) :
    ((∃ q ∈ catalog, pred q) → (pickLongest (catalog.filter pred)).isSome) ∧
    ∀ r, pickLongest (catalog.filter pred) = some r →
      r ∈ catalog ∧ pred r ∧
      (∀ q ∈ catalog, pred q → q.canonicalName.length ≤ r.canonicalName.length) ∧
      ∃ c1 c2, catalog = c1 ++ r :: c2 ∧
        ∀ q ∈ c1, pred q → q.canonicalName.length < r.canonicalName.length := by
  constructor
  · rintro ⟨q, hq, hqs⟩
    have hqf : q ∈ catalog.filter pred := List.mem_filter.mpr ⟨hq, hqs⟩
    cases hp : pickLongest (catalog.filter pred) with
    | some r => simp
    | none =>
      have hempty := pickLongest_eq_none _ hp
      rw [hempty] at hqf
      exact absurd hqf (List.not_mem_nil q)
  · intro r hr
    obtain ⟨hmemf, hmax⟩ := pickLongest_eq_some _ _ hr
    obtain ⟨hmem, hsub⟩ := List.mem_filter.mp hmemf
    refine ⟨hmem, hsub, ?_, ?_⟩
    · intro q hq hqs
      exact hmax q (List.mem_filter.mpr ⟨hq, hqs⟩)
    · obtain ⟨c1f, c2f, hsplitf, hltf⟩ := pickLongest_first_of_max _ _ hr
      obtain ⟨c1, c2, hsplit, hfl⟩ := filter_split _ catalog c1f c2f r hsplitf
      refine ⟨c1, c2, hsplit, ?_⟩
      intro q hq hqs
      have hqf : q ∈ c1f := hfl ▸ List.mem_filter.mpr ⟨hq, hqs⟩
      exact hltf q hqf

/-- The threshold constant is the source literal `0.4`. -/
theorem fuzzyThreshold_eq : fuzzyThreshold = (0.4 : ℚ) := by
  norm_num [fuzzyThreshold, mkRat]

/-! ### Further sample rows for concrete instances -/

/-- A product whose canonical name carries a leading space. -/
def prodGaramSpace : AffiliateRow :=
  { id := 2, canonicalName := " garam", link := "https://tokopedia.link/garam"
    aliases := none, category := none, partner := "tokopedia"
    searchUrlTemplate := none }

/-- The `garam` seed product with the alias `salt`. -/
def prodGaram : AffiliateRow :=
  { id := 3, canonicalName := "garam", link := "https://tokopedia.link/garam"
    aliases := some ["salt"], category := none, partner := "tokopedia"
    searchUrlTemplate := none }

/-- A second product also listing the alias `salt`. -/
def prodUyah : AffiliateRow :=
  { id := 4, canonicalName := "uyah", link := "https://tokopedia.link/uyah"
    aliases := some ["salt"], category := none, partner := "tokopedia"
    searchUrlTemplate := none }

/-- A product named `minyak`, a prefix of `minyak goreng`. -/
def prodMinyakShort : AffiliateRow :=
  { id := 5, canonicalName := "minyak", link := "https://tokopedia.link/minyak"
    aliases := none, category := none, partner := "tokopedia"
    searchUrlTemplate := none }

/-- A product whose canonical name `50` is matched by the ILIKE pattern
`50%`. -/
def prodFifty : AffiliateRow :=
  { id := 6, canonicalName := "50", link := "https://tokopedia.link/gram-50"
    aliases := none, category := none, partner := "tokopedia"
    searchUrlTemplate := none }

/-- A product listing the alias `50%`, which holds a LIKE wildcard. -/
def prodSale : AffiliateRow :=
  { id := 7, canonicalName := "sale", link := "https://tokopedia.link/sale"
    aliases := some ["50%"], category := none, partner := "tokopedia"
    searchUrlTemplate := none }

/-- The `bawang` product: the ILIKE pattern `b_wang` matches it. -/
def prodBawang : AffiliateRow :=
  { id := 8, canonicalName := "bawang", link := "https://tokopedia.link/bawang"
    aliases := none, category := none, partner := "tokopedia"
    searchUrlTemplate := none }

/-- A product literally named `b_wang` (with an underscore). -/
def prodBWang : AffiliateRow :=
  { id := 9, canonicalName := "b_wang", link := "https://tokopedia.link/b-wang"
    aliases := none, category := none, partner := "tokopedia"
    searchUrlTemplate := none }

/-- A product whose canonical name `70%` holds a LIKE wildcard. -/
def prodSeventy : AffiliateRow :=
  { id := 10, canonicalName := "70%", link := "https://tokopedia.link/madu-70"
    aliases := none, category := none, partner := "tokopedia"
    searchUrlTemplate := none }

/-- A parsed CSV data row from a file with header
`canonical_name,link,category,aliases` (no `partner` column): the
`partner` cell is `undefined` on every row. -/
def rowNoPartner : AffiliateCsvRow :=
  { canonical_name := some "Test", link := some "https://example.com"
    category := some "", aliases := some "", partner := none
    search_url_template := none }

/-- A row already present in `affiliate_products` before an import. -/
def preexistingInsert : AffiliateInsert :=
  { canonicalName := "garam", link := "https://tokopedia.link/garam"
    category := none, aliases := none, partner := "tokopedia"
    searchUrlTemplate := none }

/-! ### Claim theorems -/

/-- C2 (counterexample): with catalog `[50, sale]` where `sale` lists the
alias `50%` and no canonical name equals the normalized ingredient `50%`,
the claim demands an alias result; the program instead fires the exact
stage, because ILIKE reads the ingredient `50%` as a pattern and it
matches the canonical name `50`. -/
theorem priority_claim_violated_by_wildcard_input :
    ((∀ q ∈ [prodFifty, prodSale],
        lowerStr q.canonicalName ≠ normalize "50%") ∧
      (∃ q ∈ [prodFifty, prodSale],
        normalize "50%" ∈ (q.aliases.getD []).map lowerStr)) ∧
      matchIngredient wsimZero "50%" [prodFifty, prodSale] =
        some ⟨prodFifty, MatchType.exact⟩ := by
  decide

/-- C2 (amended): the strategy pipeline runs in strict priority order with
first success winning, where the exact stage matches the normalized
ingredient as an ILIKE pattern against canonical names rather than
comparing for equality: an exact-stage candidate forces an `exact`
result; with no exact-stage candidate, an alias candidate forces an
`alias` result; and a `fuzzy` result certifies that both earlier
strategies failed. Inputs whose normalized form ends in a dangling LIKE
escape character are excluded: PostgreSQL rejects the pattern and the
whole query fails. -/
theorem matchIngredient_strategy_priority (wsim : String → String → ℚ)
    (s : String) (catalog : List AffiliateRow)
    (hwf : likePatternWf (normalize s).data = true) :
    ((∃ r ∈ catalog, exactPred (normalize s) r) →
      ∃ r ∈ catalog, matchIngredient wsim s catalog = some ⟨r, MatchType.exact⟩) ∧
    ((∀ r ∈ catalog, ¬ exactPred (normalize s) r) →
      (∃ r ∈ catalog, aliasPred (normalize s) r) →
      ∃ r ∈ catalog, matchIngredient wsim s catalog = some ⟨r, MatchType.alias⟩) ∧
    (∀ r, matchIngredient wsim s catalog = some ⟨r, MatchType.fuzzy⟩ →
      (∀ q ∈ catalog, ¬ exactPred (normalize s) q) ∧
      (∀ q ∈ catalog, ¬ aliasPred (normalize s) q)) := by
  refine ⟨?_, ?_, ?_⟩
  · rintro ⟨r, hr, hpr⟩
    cases hf : catalog.find? (exactPred (normalize s)) with
    | none => exact absurd hpr (List.find?_eq_none.mp hf r hr)
    | some r0 =>
      exact ⟨r0, List.mem_of_find?_eq_some hf, by simp [matchIngredient, hf]⟩
  · rintro hnone ⟨r, hr, hpr⟩
    have hf0 : catalog.find? (exactPred (normalize s)) = none :=
      List.find?_eq_none.mpr hnone
    cases hf : catalog.find? (aliasPred (normalize s)) with
    | none => exact absurd hpr (List.find?_eq_none.mp hf r hr)
    | some r0 =>
      exact ⟨r0, List.mem_of_find?_eq_some hf, by simp [matchIngredient, hf0, hf]⟩
  · intro r hres
    constructor
    · intro q hq hpq
      cases hf1 : catalog.find? (exactPred (normalize s)) with
      | some r1 => simp [matchIngredient, hf1] at hres
      | none => exact absurd hpq (List.find?_eq_none.mp hf1 q hq)
    · intro q hq hpq
      cases hf1 : catalog.find? (exactPred (normalize s)) with
      | some r1 => simp [matchIngredient, hf1] at hres
      | none =>
        cases hf2 : catalog.find? (aliasPred (normalize s)) with
        | some r2 => simp [matchIngredient, hf1, hf2] at hres
        | none => exact absurd hpq (List.find?_eq_none.mp hf2 q hq)

/-- C2 (witness): on the seed catalog the exact-candidate branch fires
for `minyak goreng`. -/
theorem matchIngredient_strategy_priority_witness :
    ∃ r ∈ [prodMinyakGoreng],
      matchIngredient wsimZero "minyak goreng" [prodMinyakGoreng] =
        some ⟨r, MatchType.exact⟩ :=
  (matchIngredient_strategy_priority wsimZero "minyak goreng"
    [prodMinyakGoreng] (by decide)).1 ⟨prodMinyakGoreng, by decide, by decide⟩

/-- Supporting fact for C3's whitespace proviso: with a catalog holding
the single product whose canonical name is `" garam"` (leading space,
trivially unique case-insensitively and free of LIKE metacharacters),
calling match with exactly that canonical name does not return an exact
match — the input is trimmed to `garam` but the stored canonical name is
compared untrimmed, so the exact strategy misses. -/
theorem exact_match_fails_on_untrimmed_canonical :
    ((∀ q ∈ [prodGaramSpace],
        lowerStr q.canonicalName = lowerStr prodGaramSpace.canonicalName →
          q = prodGaramSpace) ∧
      lowerStr " garam" = lowerStr prodGaramSpace.canonicalName) ∧
      matchIngredient wsimZero " garam" [prodGaramSpace] ≠
        some ⟨prodGaramSpace, MatchType.exact⟩ := by
  decide

/-- C3 (counterexample): catalog `[bawang, b_wang]` has case-insensitively
unique canonical names, and the ingredient is exactly the second
product's canonical name `b_wang`; yet the exact ILIKE query reads `_` as
a wildcard, the pattern matches `bawang` first in catalog order, and the
match returns the wrong product. -/
theorem exact_claim_violated_by_wildcard_canonical :
    ((∀ q1 ∈ [prodBawang, prodBWang], ∀ q2 ∈ [prodBawang, prodBWang],
        lowerStr q1.canonicalName = lowerStr q2.canonicalName → q1 = q2) ∧
      prodBWang.canonicalName = "b_wang") ∧
      matchIngredient wsimZero "b_wang" [prodBawang, prodBWang] =
        some ⟨prodBawang, MatchType.exact⟩ ∧
      prodBawang ≠ prodBWang := by
  decide

/-- C3 (amended): for every product P whose canonical name is unique
case-insensitively, carries no leading or trailing whitespace once
lowercased, and contains no LIKE metacharacter (`%`, `_`, or the escape
character), calling match with P's canonical name in any letter casing
returns matchType `exact` and product P. -/
theorem matchIngredient_exact_of_canonicalName (wsim : String → String → ℚ)
    (catalog : List AffiliateRow) (P : AffiliateRow) (s : String)
    (hmem : P ∈ catalog)
    (huniq : ∀ q ∈ catalog,
      lowerStr q.canonicalName = lowerStr P.canonicalName → q = P)
    (hcase : lowerStr s = lowerStr P.canonicalName)
    (htrim : trimStr (lowerStr P.canonicalName) = lowerStr P.canonicalName)
    (hmeta : ∀ c ∈ (lowerStr P.canonicalName).data,
      c ≠ '%' ∧ c ≠ '_' ∧ c ≠ '\\') :
    matchIngredient wsim s catalog = some ⟨P, MatchType.exact⟩ := by
  have hnorm : normalize s = lowerStr P.canonicalName := by
    rw [normalize, hcase, htrim]
  have hpred : ∀ q : AffiliateRow, exactPred (normalize s) q = true ↔
      lowerStr q.canonicalName = lowerStr P.canonicalName := by
    intro q
    simp only [exactPred, ilikeMatch]
    rw [hnorm, lowerStr_idem,
      likeMatch_no_meta _ hmeta (lowerStr q.canonicalName).data]
    exact ⟨fun h => String.ext h, fun h => by rw [h]⟩
  have hfind : catalog.find? (exactPred (normalize s)) = some P := by
    apply find?_of_unique _ _ _ hmem
    · exact (hpred P).mpr rfl
    · intro x hx hpx
      exact huniq x hx ((hpred x).mp hpx)
  simp [matchIngredient, hfind]

/-- C3 (witness): `GARAM` finds the `garam` product exactly. -/
theorem matchIngredient_exact_of_canonicalName_witness :
    matchIngredient wsimZero "GARAM" [prodGaram] =
      some ⟨prodGaram, MatchType.exact⟩ :=
  matchIngredient_exact_of_canonicalName wsimZero [prodGaram] prodGaram
    "GARAM" (by decide) (by decide) (by decide) (by decide) (by decide)

/-- Supporting fact for C4's catalog-order proviso: two products may list
the same alias. With catalog `[garam, uyah]` both carrying alias `salt`,
and no canonical name equal to `salt`, matching `salt` does not return
the second product `uyah` — the first product in catalog order wins. -/
theorem alias_match_fails_on_shared_alias :
    (("salt" ∈ prodUyah.aliases.getD []) ∧
      (∀ q ∈ [prodGaram, prodUyah],
        lowerStr q.canonicalName ≠ lowerStr "salt")) ∧
      matchIngredient wsimZero "salt" [prodGaram, prodUyah] ≠
        some ⟨prodUyah, MatchType.alias⟩ := by
  decide

/-- C4 (counterexample): with catalog `[50, sale]`, the alias `50%` on
`sale`, and no canonical name equal to `50%`, the claim demands
`⟨sale, alias⟩`; but the exact ILIKE stage reads the ingredient `50%` as
a pattern, matches the canonical name `50`, and returns an exact match
for the other product instead. -/
theorem alias_claim_violated_by_wildcard_input :
    ((normalize "50%" ∈ (prodSale.aliases.getD []).map lowerStr) ∧
      (∀ q ∈ [prodFifty, prodSale],
        lowerStr q.canonicalName ≠ normalize "50%")) ∧
      matchIngredient wsimZero "50%" [prodFifty, prodSale] ≠
        some ⟨prodSale, MatchType.alias⟩ := by
  decide

/-- C4 (amended): for every product P and alias `a` of P whose lowercase
form carries no surrounding whitespace and is a well-formed LIKE pattern,
matching `a` in any casing returns matchType `alias` and product P,
provided the normalized alias, read as an ILIKE pattern, matches no
product's canonical name (this also rules out a canonical name equal to
`a`), and no product before P in catalog order also lists `a` as an
alias. -/
theorem matchIngredient_alias_of_alias (wsim : String → String → ℚ)
    (l1 l2 : List AffiliateRow) (P : AffiliateRow) (a s : String)
    (ha : a ∈ P.aliases.getD [])
    (htrim : trimStr (lowerStr a) = lowerStr a)
    (hwf : likePatternWf (lowerStr a).data = true)
    (hcase : lowerStr s = lowerStr a)
    (hnoexact : ∀ q ∈ l1 ++ P :: l2, ¬ exactPred (lowerStr a) q)
    (hfirst : ∀ q ∈ l1, ¬ aliasPred (lowerStr a) q) :
    matchIngredient wsim s (l1 ++ P :: l2) = some ⟨P, MatchType.alias⟩ := by
  have hnorm : normalize s = lowerStr a := by
    rw [normalize, hcase, htrim]
  have hfe : (l1 ++ P :: l2).find? (exactPred (normalize s)) = none := by
    apply List.find?_eq_none.mpr
    intro x hx
    rw [hnorm]
    exact hnoexact x hx
  have hfa : (l1 ++ P :: l2).find? (aliasPred (normalize s)) = some P := by
    rw [hnorm]
    apply find?_first _ _ _ _ hfirst
    have hmm : lowerStr a ∈ (P.aliases.getD []).map lowerStr :=
      List.mem_map_of_mem lowerStr ha
    exact List.elem_eq_true_of_mem hmm
  simp [matchIngredient, hfe, hfa]

/-- C4 (witness): `SALT` resolves by alias to the `garam` product when it
is the only product listing that alias. -/
theorem matchIngredient_alias_of_alias_witness :
    matchIngredient wsimZero "SALT" ([prodMinyakGoreng] ++ prodGaram :: []) =
      some ⟨prodGaram, MatchType.alias⟩ :=
  matchIngredient_alias_of_alias wsimZero [prodMinyakGoreng] [] prodGaram
    "salt" "SALT" (by decide) (by decide) (by decide) (by decide) (by decide)
    (by decide)

/-- C5: once the exact and alias strategies have failed, the fuzzy
strategy fires exactly when some product's similarity to the normalized
ingredient exceeds the fixed threshold 0.4, and the returned product has
maximal similarity, with ties broken in favour of the earliest catalog
row. The well-formedness hypothesis excludes inputs whose normalized form
PostgreSQL rejects as a LIKE pattern (the exact-stage query would raise
instead of returning no rows). -/
theorem matchIngredient_fuzzy_threshold_argmax (wsim : String → String → ℚ)
    (s : String) (catalog : List AffiliateRow)
    (hwf : likePatternWf (normalize s).data = true)
    (hex : ∀ q ∈ catalog, ¬ exactPred (normalize s) q)
    (hal : ∀ q ∈ catalog, ¬ aliasPred (normalize s) q) :
    ((∃ q ∈ catalog, wsim (normalize s) q.canonicalName > fuzzyThreshold) ↔
      ∃ r, matchIngredient wsim s catalog = some ⟨r, MatchType.fuzzy⟩) ∧
    ∀ r, matchIngredient wsim s catalog = some ⟨r, MatchType.fuzzy⟩ →
      r ∈ catalog ∧ wsim (normalize s) r.canonicalName > fuzzyThreshold ∧
      (∀ q ∈ catalog, wsim (normalize s) q.canonicalName > fuzzyThreshold →
        wsim (normalize s) q.canonicalName ≤ wsim (normalize s) r.canonicalName) ∧
      ∃ c1 c2, catalog = c1 ++ r :: c2 ∧
        ∀ q ∈ c1, wsim (normalize s) q.canonicalName > fuzzyThreshold →
          wsim (normalize s) q.canonicalName < wsim (normalize s) r.canonicalName := by
  have hfe : catalog.find? (exactPred (normalize s)) = none :=
    List.find?_eq_none.mpr hex
  have hfa : catalog.find? (aliasPred (normalize s)) = none :=
    List.find?_eq_none.mpr hal
  constructor
  · constructor
    · rintro ⟨q, hq, hqt⟩
      cases hfb : fuzzyBest wsim (normalize s) catalog with
      | none =>
        exact absurd hqt ((fuzzyBest_eq_none_iff _ _ _).mp hfb q hq)
      | some r =>
        exact ⟨r, by simp [matchIngredient, hfe, hfa, hfb]⟩
    · rintro ⟨r, hr⟩
      simp only [matchIngredient, hfe, hfa] at hr
      cases hfb : fuzzyBest wsim (normalize s) catalog with
      | none => rw [hfb] at hr; exact Option.noConfusion hr
      | some b =>
        obtain ⟨hbmem, hbt, _⟩ := fuzzyBest_eq_some _ _ _ _ hfb
        exact ⟨b, hbmem, hbt⟩
  · intro r hr
    simp only [matchIngredient, hfe, hfa] at hr
    cases hfb : fuzzyBest wsim (normalize s) catalog with
    | none => rw [hfb] at hr; exact Option.noConfusion hr
    | some b =>
      rw [hfb] at hr
      have hbr : b = r := by
        simpa [AffiliateMatch.mk.injEq] using hr
      subst hbr
      obtain ⟨hbmem, hbt, hbmax⟩ := fuzzyBest_eq_some _ _ _ _ hfb
      obtain ⟨c1, c2, hsplit, hlt⟩ := fuzzyBest_first_of_max _ _ _ _ hfb
      exact ⟨hbmem, hbt, hbmax, c1, c2, hsplit, hlt⟩

/-- C5 (witness): the typo `mnyak` scores 1/2 > 0.4 against
`minyak goreng` and the fuzzy branch fires. -/
theorem matchIngredient_fuzzy_threshold_argmax_witness :
    ∃ r, matchIngredient wsimTypo "mnyak" [prodMinyakGoreng] =
      some ⟨r, MatchType.fuzzy⟩ :=
  ((matchIngredient_fuzzy_threshold_argmax wsimTypo "mnyak"
      [prodMinyakGoreng] (by decide) (by decide) (by decide)).1).mp
    ⟨prodMinyakGoreng, by decide, by decide⟩

/-- C6 (counterexample): the SQL route variant's candidate set is not
substring containment. The canonical name `70%` is not a substring of the
ingredient `madu 70 persen`, yet the query
`normalized ILIKE '%' || canonical_name || '%'` selects it, because the
`%` inside the canonical name acts as a wildcard in the spliced
pattern. -/
theorem contains_sql_claim_violated_by_wildcard_canonical :
    substrOf (lowerStr prodSeventy.canonicalName) "madu 70 persen" = false ∧
      containsMatchSql "madu 70 persen" [prodSeventy] = some prodSeventy := by
  decide

/-- C6 (amended): both contains variants select, among their candidate
rows, the product with the longest canonical name, the first in catalog
order when several share the maximal length (e.g. ingredient
`beli minyak goreng sekarang` picks the `minyak goreng` product over
`minyak`). The in-memory variant's candidates are the products whose
lowercased canonical name occurs literally inside the normalized
ingredient; the SQL route variant's candidates are the matches of the
ILIKE pattern `'%' || canonical_name || '%'`, which coincide with the
former only for canonical names free of LIKE metacharacters. -/
theorem containsMatch_longest_first_both_variants (n : String)
    (catalog : List AffiliateRow) :
    (((∃ q ∈ catalog, substrOf (lowerStr q.canonicalName) n) →
        (containsMatch n catalog).isSome) ∧
      ∀ r, containsMatch n catalog = some r →
        r ∈ catalog ∧ substrOf (lowerStr r.canonicalName) n ∧
        (∀ q ∈ catalog, substrOf (lowerStr q.canonicalName) n →
          q.canonicalName.length ≤ r.canonicalName.length) ∧
        ∃ c1 c2, catalog = c1 ++ r :: c2 ∧
          ∀ q ∈ c1, substrOf (lowerStr q.canonicalName) n →
            q.canonicalName.length < r.canonicalName.length) ∧
    (((∃ q ∈ catalog, containsPredSql n q) →
        (containsMatchSql n catalog).isSome) ∧
      ∀ r, containsMatchSql n catalog = some r →
        r ∈ catalog ∧ containsPredSql n r ∧
        (∀ q ∈ catalog, containsPredSql n q →
          q.canonicalName.length ≤ r.canonicalName.length) ∧
        ∃ c1 c2, catalog = c1 ++ r :: c2 ∧
          ∀ q ∈ c1, containsPredSql n q →
            q.canonicalName.length < r.canonicalName.length) :=
  ⟨pickFromFilter_spec (fun a => substrOf (lowerStr a.canonicalName) n) catalog,
    pickFromFilter_spec (containsPredSql n) catalog⟩

/-- C6 (witness): with products `minyak` and `minyak goreng`, both
contained in `beli minyak goreng sekarang`, each variant returns the
longer `minyak goreng`, and the theorem confirms it is a catalog
member. -/
theorem containsMatch_longest_first_both_variants_witness :
    (containsMatch "beli minyak goreng sekarang"
        [prodMinyakShort, prodMinyakGoreng] = some prodMinyakGoreng ∧
      prodMinyakGoreng ∈ [prodMinyakShort, prodMinyakGoreng]) ∧
    (containsMatchSql "beli minyak goreng sekarang"
        [prodMinyakShort, prodMinyakGoreng] = some prodMinyakGoreng ∧
      prodMinyakGoreng ∈ [prodMinyakShort, prodMinyakGoreng]) :=
  ⟨⟨by decide,
    ((containsMatch_longest_first_both_variants "beli minyak goreng sekarang"
        [prodMinyakShort, prodMinyakGoreng]).1.2 prodMinyakGoreng
      (by decide)).1⟩,
   ⟨by decide,
    ((containsMatch_longest_first_both_variants "beli minyak goreng sekarang"
        [prodMinyakShort, prodMinyakGoreng]).2.2 prodMinyakGoreng
      (by decide)).1⟩⟩

/-- C7 (counterexample): a whitespace-only ingredient is empty after
trimming yet is not rejected with a client error: the route invokes the
matcher and answers 404, because the guard `!ingredient` only catches the
truly empty string. -/
theorem matchRoute_accepts_whitespace_only :
    (trimStr "   " = "" ∧ ("   " : String) ≠ "" ∧
      ("   " : String).length ≤ 200) ∧
      matchRoute wsimZero (some "   ") [prodMinyakGoreng] =
        RouteResult.notFound := by
  decide

/-- C7 (amended): the ingredient is lowercased and trimmed before
comparison (the matcher's output depends only on the normalized name),
and the route rejects with a client error exactly the requests whose
ingredient is absent, empty before trimming, or longer than 200
characters; whitespace-only input passes validation. -/
theorem matchRoute_validation_boundary (wsim : String → String → ℚ)
    (catalog : List AffiliateRow) :
    matchRoute wsim none catalog = RouteResult.badRequest ∧
    (∀ s : String,
      (matchRoute wsim (some s) catalog = RouteResult.badRequest ↔
        s.length = 0 ∨ s.length > 200)) ∧
    (∀ s t : String, normalize s = normalize t →
      matchIngredient wsim s catalog = matchIngredient wsim t catalog) := by
  refine ⟨rfl, ?_, ?_⟩
  · intro s
    by_cases hv : s.length = 0 ∨ s.length > 200
    · simp [matchRoute, hv]
    · simp only [matchRoute, if_neg hv]
      cases hm : matchIngredient wsim s catalog <;> simp [hv]
  · intro s t h
    simp [matchIngredient, h]

set_option maxRecDepth 4000 in
/-- C7 (witness): a 201-character ingredient is rejected. -/
theorem matchRoute_validation_boundary_witness :
    matchRoute wsimZero (some (String.mk (List.replicate 201 'a')))
      [prodMinyakGoreng] = RouteResult.badRequest :=
  ((matchRoute_validation_boundary wsimZero [prodMinyakGoreng]).2.1 _).mpr
    (Or.inr (by decide))

/-- C8: matching is case-insensitive — the matcher's output is invariant
under any change of letter case of the ingredient name (any two inputs
with the same lowercasing give identical results). -/
theorem matchIngredient_case_insensitive (wsim : String → String → ℚ)
    (s t : String) (catalog : List AffiliateRow)
    (h : lowerStr s = lowerStr t) :
    matchIngredient wsim s catalog = matchIngredient wsim t catalog := by
  simp [matchIngredient, normalize, h]

/-- C8 (witness): `MINYAK GORENG` and `minyak goreng` give identical
results on the seed catalog. -/
theorem matchIngredient_case_insensitive_witness :
    matchIngredient wsimZero "MINYAK GORENG" [prodMinyakGoreng] =
      matchIngredient wsimZero "minyak goreng" [prodMinyakGoreng] :=
  matchIngredient_case_insensitive wsimZero "MINYAK GORENG" "minyak goreng"
    [prodMinyakGoreng] (by decide)

/-- C9: every produced match carries matchType `exact`, `alias`, or
`fuzzy` — never `contains` or `search`, and no fallback link is built —
and the route maps a matcher miss on a valid ingredient to the 404
branch. -/
theorem matchIngredient_matchType_range (wsim : String → String → ℚ)
    (s : String) (catalog : List AffiliateRow) :
    (∀ m, matchIngredient wsim s catalog = some m →
      m.matchType = MatchType.exact ∨ m.matchType = MatchType.alias ∨
        m.matchType = MatchType.fuzzy) ∧
    (¬ (s.length = 0 ∨ s.length > 200) →
      matchIngredient wsim s catalog = none →
      matchRoute wsim (some s) catalog = RouteResult.notFound) := by
  constructor
  · intro m hm
    simp only [matchIngredient] at hm
    cases hf1 : catalog.find? (exactPred (normalize s)) with
    | some r => rw [hf1] at hm; cases hm; left; rfl
    | none =>
      rw [hf1] at hm
      cases hf2 : catalog.find? (aliasPred (normalize s)) with
      | some r => rw [hf2] at hm; cases hm; right; left; rfl
      | none =>
        rw [hf2] at hm
        cases hf3 : fuzzyBest wsim (normalize s) catalog with
        | some r => rw [hf3] at hm; cases hm; right; right; rfl
        | none => rw [hf3] at hm; exact Option.noConfusion hm
  · intro hv hm
    simp [matchRoute, if_neg hv, hm]

/-- C9 (witness): `telur` misses on the seed catalog and the route
answers 404. -/
theorem matchIngredient_matchType_range_witness :
    matchRoute wsimZero (some "telur") [prodMinyakGoreng] =
      RouteResult.notFound :=
  (matchIngredient_matchType_range wsimZero "telur" [prodMinyakGoreng]).2
    (by decide) (by decide)

/-- C10: a CSV with the header `canonical_name,link,category,aliases` —
the exact column set of the `AffiliateCsvRow` interface in
`csv-helpers.ts` — and one well-formed data row passes
`validateAffiliateRows` with no errors, yet `importAffiliatesCsv` does
not replace the table: `a.partner.trim()` dereferences the absent
`partner` cell, the thrown TypeError aborts the transaction, and the
table is left unchanged. The unit tests expect `validateAffiliateRows`
to reject a missing partner, which the shipped validator never checks. -/
theorem importAffiliatesCsv_missing_partner_crash :
    validateAffiliateRows [rowNoPartner] = [] ∧
      importAffiliatesCsv [rowNoPartner] [preexistingInsert] =
        ([preexistingInsert], ImportOutcome.runtimeTypeError) := by
  decide

end Masakyuk
